import Mathlib

/-!
Shallow embedding of the cloudwatch-metrics-aggregator library
(source of authority: src/index.ts).

Modelling conventions:
* JS numbers carried by metrics are modelled as `Int` (all claims are about
  structural accumulation, not floating-point rounding).
* `Date` timestamps are opaque; they are modelled as `Option Nat`.
* Optional JS fields (`Timestamp?`, `Unit?`, `Dimensions?`) become `Option`.
* A JS object used as a string-keyed map preserves insertion order of its
  (non-array-index) keys and `for (k in map)` iterates in that order; such a
  map is modelled as an association list (`alSet` replaces in place or
  appends, `for in` extraction is `List.map Prod.snd`).
* `JSON.stringify` applied to `{MetricName, Dimensions?}` (and to a
  `Dimensions` list) is injective for these shapes, so the string keys of the
  two maps are modelled by structural keys (`AggKey`, `CKey`).  The key
  `MetricName + "[]"` coincides with `MetricName + JSON.stringify(dims ?? [])`
  exactly when the dimension list is empty or absent (a stringified non-empty
  list ends in "}]", never in "[]"), which the `CKey` model reflects.
* `Array.prototype.sort` with a comparator is, per the ECMAScript spec, a
  stable sort consistent with the comparator; it is modelled by Mathlib's
  (stable) `List.insertionSort` on the comparator's order.
-/

/-- One CloudWatch dimension: a name/value string pair (src/index.ts, `Dimension`). -/
structure Dimension where
  Name : String
  Value : String
deriving DecidableEq

/-- One raw metric sample (src/index.ts, `Metric` = `BaseMetric & {Value}`). -/
structure Metric where
  MetricName : String
  Timestamp : Option Nat := none
  Unit : Option String := none
  Dimensions : Option (List Dimension) := none
  Value : Int
deriving DecidableEq

/-- A value-set view of several samples (src/index.ts, `MetricSet`). -/
structure MetricSet where
  MetricName : String
  Timestamp : Option Nat := none
  Unit : Option String := none
  Dimensions : Option (List Dimension) := none
  Values : List Int
  Counts : Option (List Int) := none
deriving DecidableEq

/-- The order the dimension-sort comparator implements: ascending `Name`
    (src/index.ts lines 146-150: returns 1 when a.Name > b.Name, -1 when
    a.Name < b.Name, 0 otherwise). -/
def dimLE (a b : Dimension) : Prop := a.Name ≤ b.Name

instance : DecidableRel dimLE := fun a b =>
  decidable_of_iff (a.Name.toList ≤ b.Name.toList) String.le_iff_toList_le.symm

instance : IsTotal Dimension dimLE := ⟨fun a b => le_total a.Name b.Name⟩

instance : IsTrans Dimension dimLE := ⟨fun _ _ _ h1 h2 => le_trans h1 h2⟩

/-- Strict version of `dimLE`, used to exploit uniqueness of sorted lists. -/
def dimLT (a b : Dimension) : Prop := a.Name < b.Name

instance : IsAntisymm Dimension dimLT :=
  ⟨fun _ _ h1 h2 => absurd h2 (not_lt.mpr (le_of_lt h1))⟩

/-- Model of `metric.Dimensions.sort(comparator)`: a stable sort by ascending
    dimension name. -/
def sortDims (ds : List Dimension) : List Dimension := List.insertionSort dimLE ds

/-- JS `reduce((pv, cv) => pv + cv)` without an initial value: seeds with the
    first element and folds left.  (On an empty array JS throws; in this
    library the array is never empty when reduce is called, so the `[]` case
    is an arbitrary total completion.) -/
def jsReduceAdd : List Int → Int
  | [] => 0
  | v :: rest => rest.foldl (· + ·) v

/-- Accumulator of same-identity samples (src/index.ts, `AggregatedMetric`).
    `_metrics` is the protected backing list of pushed metrics. -/
structure AggregatedMetric where
  MetricName : String
  Dimensions : Option (List Dimension)
  Timestamp : Option Nat
  Unit : Option String
  Value : Int
  Values : List Int
  _metrics : List Metric
deriving DecidableEq

/-- The constructor (src/index.ts lines 37-42): copies `MetricName`, `Value`,
    `Dimensions`, pushes the seed value onto `Values`; `Timestamp` and `Unit`
    are never assigned (they stay undefined), and the seed is not pushed onto
    `_metrics`. -/
def AggregatedMetric.ofMetric (m : Metric) : AggregatedMetric :=
  { MetricName := m.MetricName
    Dimensions := m.Dimensions
    Timestamp := none
    Unit := none
    Value := m.Value
    Values := [m.Value]
    _metrics := [] }

/-- src/index.ts lines 44-49: record the metric, append its value, recompute
    `Value` as the reduce of the whole `Values` list. -/
def AggregatedMetric.push (a : AggregatedMetric) (m : Metric) : AggregatedMetric :=
  let values := a.Values ++ [m.Value]
  { a with _metrics := a._metrics ++ [m], Values := values, Value := jsReduceAdd values }

/-- src/index.ts lines 51-53: the length of the `_metrics` backing list. -/
def AggregatedMetric.count (a : AggregatedMetric) : Nat := a._metrics.length

/-- src/index.ts lines 55-63. -/
def AggregatedMetric.getMetric (a : AggregatedMetric) : Metric :=
  { MetricName := a.MetricName
    Dimensions := a.Dimensions
    Timestamp := a.Timestamp
    Unit := a.Unit
    Value := a.Value }

/-- src/index.ts lines 65-73. -/
def AggregatedMetric.getMetricSet (a : AggregatedMetric) : MetricSet :=
  { MetricName := a.MetricName
    Dimensions := a.Dimensions
    Timestamp := a.Timestamp
    Unit := a.Unit
    Values := a.Values }

/-- Lookup in an insertion-ordered JS object modelled as an association list. -/
def alGet {κ ν : Type} [DecidableEq κ] (k : κ) : List (κ × ν) → Option ν
  | [] => none
  | (k1, v1) :: rest => if k1 = k then some v1 else alGet k rest

/-- Assignment `map[k] = v` on an insertion-ordered JS object: replaces the
    value in place when the key exists, otherwise appends the new key at the
    end of the insertion order. -/
def alSet {κ ν : Type} [DecidableEq κ] (k : κ) (v : ν) : List (κ × ν) → List (κ × ν)
  | [] => [(k, v)]
  | (k1, v1) :: rest => if k1 = k then (k, v) :: rest else (k1, v1) :: alSet k v rest

/-- Structural stand-in for the aggregation-map key
    `JSON.stringify({MetricName, Dimensions?})` of src/index.ts lines 144-153:
    the `Dimensions` property of the key object is only set when the metric's
    dimension list is present and non-empty, in which case it holds the sorted
    list. -/
structure AggKey where
  name : String
  dims : Option (List Dimension)
deriving DecidableEq

/-- The `Dimensions` component of the key object (absent unless the metric has
    a non-empty dimension list; sorted by name when present). -/
def keyDims (m : Metric) : Option (List Dimension) :=
  match m.Dimensions with
  | some ds => if 0 < ds.length then some (sortDims ds) else none
  | none => none

/-- The aggregation-map key of a metric. -/
def metricKey (m : Metric) : AggKey := ⟨m.MetricName, keyDims m⟩

/-- The comparator sort in src/index.ts line 146 mutates `metric.Dimensions`
    in place, so the metric subsequently stored in the aggregate carries the
    sorted list; `canonMetric` is that mutated metric. -/
def canonMetric (m : Metric) : Metric :=
  match m.Dimensions with
  | some ds => if 0 < ds.length then { m with Dimensions := some (sortDims ds) } else m
  | none => m

/-- The insertion-ordered aggregation map of src/index.ts `reduceAndClear`. -/
abbrev AggMap := List (AggKey × AggregatedMetric)

/-- src/index.ts lines 142-159 (`AggregateMetricQueue.mapMetricToAggregator`):
    compute the key (sorting the metric's dimensions in place), then create a
    new aggregate or push onto the existing one. -/
def AggregateMetricQueue.mapMetricToAggregator (m : Metric) (map : AggMap) : AggMap :=
  let m1 := canonMetric m
  match alGet (metricKey m) map with
  | none => alSet (metricKey m) (AggregatedMetric.ofMetric m1) map
  | some a => alSet (metricKey m) (a.push m1) map

/-- The `while` guard of src/index.ts line 110 apart from the shifted metric:
    `!limit || counter < limit`.  A missing limit and a limit of 0 are both
    falsy, so both disable the bound. -/
def limitAllows (lim : Option Nat) (counter : Nat) : Bool :=
  match lim with
  | none => true
  | some l => l == 0 || counter < l

/-- The `while` loop of src/index.ts lines 108-114.  Each iteration first
    shifts the head off the queue, then tests the guard; when the guard fails
    the already-shifted metric is neither processed nor put back (it is
    dropped), and the rest of the queue is what remains.  Returns the final
    map together with the remaining queue. -/
def AggregateMetricQueue.reduceLoop (lim : Option Nat) :
    Nat → List Metric → AggMap → AggMap × List Metric
  | _, [], map => (map, [])
  | counter, m :: rest, map =>
    if limitAllows lim counter then
      AggregateMetricQueue.reduceLoop lim (counter + 1) rest
        (AggregateMetricQueue.mapMetricToAggregator m map)
    else (map, rest)

/-- src/index.ts lines 105-122 (`reduceAndClear`): run the loop on the queue,
    then extract the map's values in key-insertion order.  The queue is stored
    mutably in the class; the model returns the aggregates together with the
    post-call queue. -/
def AggregateMetricQueue.reduceAndClear (lim : Option Nat) (q : List Metric) :
    List AggregatedMetric × List Metric :=
  let r := AggregateMetricQueue.reduceLoop lim 0 q []
  (r.1.map Prod.snd, r.2)

/-- src/index.ts lines 97-100 (`addMetrics`): push every supplied metric onto
    the tail of the queue, in order; no validation of any kind. -/
def AggregateMetricQueue.addMetrics (q : List Metric) (ms : List Metric) : List Metric :=
  ms.foldl (fun qq m => qq ++ [m]) q

/-- src/index.ts lines 132-134 (`count`). -/
def AggregateMetricQueue.count (q : List Metric) : Nat := q.length

/-- Structural stand-in for the coalesce-map string keys of src/index.ts
    lines 179-181: `rollup n` models `n ++ "[]"`, and `unique n ds` models
    `n ++ JSON.stringify(ds)` for a non-empty `ds`.  `n ++
    JSON.stringify(dims ?? [])` equals `n ++ "[]"` exactly when `dims ?? []`
    is empty, which `coalesceUniqueKey` reflects. -/
inductive CKey where
  | rollup (name : String)
  | unique (name : String) (dims : List Dimension)
deriving DecidableEq

/-- The metric name a coalesce-map key was built from. -/
def CKey.keyName : CKey → String
  | .rollup n => n
  | .unique n _ => n

/-- The key `metric.MetricName + JSON.stringify(metric.Dimensions ?? [])`. -/
def coalesceUniqueKey (a : AggregatedMetric) : CKey :=
  match a.Dimensions.getD [] with
  | [] => .rollup a.MetricName
  | ds => .unique a.MetricName ds

/-- The first `if/else` of the loop body, src/index.ts lines 183-189: the
    roll-up entry is created as `metric.getMetricSet()` (its `Dimensions` are
    NOT cleared), or extended by concatenating `Values`. -/
def rollupUpdate (cmap : List (CKey × MetricSet)) (a : AggregatedMetric) :
    List (CKey × MetricSet) :=
  match alGet (CKey.rollup a.MetricName) cmap with
  | none => alSet (CKey.rollup a.MetricName) a.getMetricSet cmap
  | some ex =>
    alSet (CKey.rollup a.MetricName) { ex with Values := ex.Values ++ a.getMetricSet.Values } cmap

/-- One iteration of the `for (metric of metrics)` loop of src/index.ts
    lines 178-194: the roll-up update, then — when the unique key differs from
    the roll-up key (i.e. the entry has non-empty dimensions) — the metric
    itself is stored under the unique key.  The fields it exposes through the
    `MetricSet` shape are exactly `getMetricSet()` (the extra
    `Value`/`_metrics` properties are outside that shape, and the shared
    `Values` array is never mutated afterwards — roll-up updates reassign a
    fresh concatenation). -/
def coalesceStep (cmap : List (CKey × MetricSet)) (a : AggregatedMetric) :
    List (CKey × MetricSet) :=
  let cmap1 := rollupUpdate cmap a
  if coalesceUniqueKey a ≠ CKey.rollup a.MetricName then
    alSet (coalesceUniqueKey a) a.getMetricSet cmap1
  else cmap1

/-- src/index.ts lines 176-202 (`AggregateMetricQueue.coalesce`): fold the
    step over the input, then emit the map's values in key-insertion order. -/
def AggregateMetricQueue.coalesce (ms : List AggregatedMetric) : List MetricSet :=
  (ms.foldl coalesceStep []).map Prod.snd

/-- src/index.ts lines 128-130 (`coalesceAndClear`): coalesce the result of
    `reduceAndClear`, propagating the mutated queue. -/
def AggregateMetricQueue.coalesceAndClear (lim : Option Nat) (q : List Metric) :
    List MetricSet × List Metric :=
  let r := AggregateMetricQueue.reduceAndClear lim q
  (AggregateMetricQueue.coalesce r.1, r.2)

/-- State of `AggregateMetricTimedHandler` (src/index.ts lines 229-265)
    together with the piece of the JS runtime the claims depend on:
    `timer`/`interval` are the object's fields (`null` is `none`); `nextId`
    generates the fresh truthy handles `setInterval` returns; `active` is the
    runtime's table of armed recurring timers (`setInterval` adds an id,
    `clearInterval` removes it).  The `queue`/`callback` fields take no part
    in the scheduling-state claims and are omitted. -/
structure AggregateMetricTimedHandler where
  timer : Option Nat
  interval : Int
  nextId : Nat
  active : List Nat
deriving DecidableEq

/-- A freshly constructed handler (src/index.ts lines 230-231, 235-238):
    `timer = null`, `interval = 1000`. -/
def initHandler : AggregateMetricTimedHandler :=
  { timer := none, interval := 1000, nextId := 1, active := [] }

/-- src/index.ts lines 240-252 (`start`): return if `this.timer` is truthy;
    record the interval if the argument is truthy and positive; arm a
    recurring timer and store its handle. -/
def AggregateMetricTimedHandler.start (s : AggregateMetricTimedHandler)
    (i : Option Int) : AggregateMetricTimedHandler :=
  if s.timer.isSome then s
  else
    let iv := match i with
      | some v => if 0 < v then v else s.interval
      | none => s.interval
    { timer := some s.nextId, interval := iv, nextId := s.nextId + 1,
      active := s.active ++ [s.nextId] }

/-- src/index.ts lines 260-264 (`cancel`): when `this.timer` is truthy, call
    `clearInterval(this.timer)` — disarming the runtime timer — but leave the
    `timer` field untouched (the source never assigns `this.timer = null`). -/
def AggregateMetricTimedHandler.cancel (s : AggregateMetricTimedHandler) :
    AggregateMetricTimedHandler :=
  match s.timer with
  | some id => { s with active := s.active.filter (fun x => x ≠ id) }
  | none => s

/-- The scheduler is Running exactly when a recurring timer is armed in the
    runtime. -/
def isRunning (s : AggregateMetricTimedHandler) : Bool := !s.active.isEmpty

/-- An externally invokable scheduling operation. -/
inductive HandlerOp where
  | start (i : Option Int)
  | cancel
deriving DecidableEq

/-- Apply one scheduling operation. -/
def applyOp (s : AggregateMetricTimedHandler) : HandlerOp → AggregateMetricTimedHandler
  | .start i => s.start i
  | .cancel => s.cancel

/-- Apply a sequence of scheduling operations, oldest first. -/
def applyOps (s : AggregateMetricTimedHandler) (ops : List HandlerOp) :
    AggregateMetricTimedHandler :=
  ops.foldl applyOp s

/-- The effective dimension list of a metric: an absent list behaves as the
    empty list (`metric.Dimensions ?? []`, and the `&& length > 0` guard of
    the aggregation key). -/
def effDims (m : Metric) : List Dimension := m.Dimensions.getD []

/-- The dimension names within one list are pairwise distinct (the library
    expects dimension names unique within one metric). -/
def dimNamesDistinct (d : List Dimension) : Prop :=
  d.Pairwise (fun a b => a.Name ≠ b.Name)

instance (d : List Dimension) : Decidable (dimNamesDistinct d) :=
  inferInstanceAs (Decidable (List.Pairwise (fun a b : Dimension => a.Name ≠ b.Name) d))

/-- An aggregate's dimension list, when present, is sorted by ascending
    dimension name. -/
def dimsSorted (a : AggregatedMetric) : Prop :=
  ∀ d, a.Dimensions = some d → d.Pairwise dimLE

/-- Number of coalesced entries carrying a given metric name. -/
def countName (n : String) (sets : List MetricSet) : Nat :=
  (sets.filter (fun s => s.MetricName == n)).length

/-- Concrete sample inputs used by the evaluation theorems. -/
def mA : Metric := { MetricName := "a", Value := 1 }

/-- Second sample metric. -/
def mB : Metric := { MetricName := "b", Value := 2 }

/-- Third sample metric. -/
def mC : Metric := { MetricName := "c", Value := 3 }

/-- The `height` dimension of the repository's test suite. -/
def dimHeight : Dimension := ⟨"height", "5 ft"⟩

/-- The dimension-less `m1` sample of the test suite. -/
def mM1 : Metric := { MetricName := "m1", Value := 1 }

/-- The dimensioned `m1` sample of the test suite, with value 3. -/
def mM1Dim3 : Metric := { MetricName := "m1", Value := 3, Dimensions := some [dimHeight] }

/-- A metric with two dimensions listed as abc, xyz. -/
def mP1 : Metric :=
  { MetricName := "m1", Value := 1,
    Dimensions := some [⟨"abc", "xyz"⟩, ⟨"xyz", "abc"⟩] }

/-- The same identity as `mP1` with the dimensions listed in the other order. -/
def mP2 : Metric :=
  { MetricName := "m1", Value := 1,
    Dimensions := some [⟨"xyz", "abc"⟩, ⟨"abc", "xyz"⟩] }

/-- Same name as `mP1` but no dimensions: a distinct identity. -/
def mP3 : Metric := { MetricName := "m1", Value := 4 }

/-- A metric whose dimensions arrive unsorted. -/
def mW : Metric :=
  { MetricName := "w", Value := 4, Dimensions := some [⟨"b", "2"⟩, ⟨"a", "1"⟩] }

/-- The aggregate draining `[mW]` produces. -/
def aggW : AggregatedMetric := AggregatedMetric.ofMetric (canonMetric mW)

/-- The sorting pass is a permutation of the input dimensions. -/
theorem sortDims_perm (ds : List Dimension) : (sortDims ds).Perm ds :=
  List.perm_insertionSort dimLE ds

/-- The sorting pass sorts by ascending dimension name. -/
theorem sortDims_sorted (ds : List Dimension) : List.Sorted dimLE (sortDims ds) :=
  List.sorted_insertionSort dimLE ds

/-- Two permuted dimension lists with distinct names canonicalize to the same
    sorted list. -/
theorem sortDims_eq_of_perm {d1 d2 : List Dimension} (hp : d1.Perm d2)
    (hd : dimNamesDistinct d1) : sortDims d1 = sortDims d2 := by
  have hsymm : ∀ {x y : Dimension}, x.Name ≠ y.Name → y.Name ≠ x.Name := fun h => h.symm
  have hperm : (sortDims d1).Perm (sortDims d2) :=
    (sortDims_perm d1).trans (hp.trans (sortDims_perm d2).symm)
  have hne1 : (sortDims d1).Pairwise (fun a b => a.Name ≠ b.Name) :=
    ((sortDims_perm d1).pairwise_iff hsymm).mpr hd
  have hne2 : (sortDims d2).Pairwise (fun a b => a.Name ≠ b.Name) :=
    ((sortDims_perm d2).pairwise_iff hsymm).mpr ((hp.pairwise_iff hsymm).mp hd)
  have hs1 : List.Sorted dimLT (sortDims d1) :=
    ((sortDims_sorted d1).and hne1).imp (fun h => lt_of_le_of_ne h.1 h.2)
  have hs2 : List.Sorted dimLT (sortDims d2) :=
    ((sortDims_sorted d2).and hne2).imp (fun h => lt_of_le_of_ne h.1 h.2)
  exact List.eq_of_perm_of_sorted hperm hs1 hs2

/-- A successful association-list lookup is a membership. -/
theorem alGet_mem {κ ν : Type} [DecidableEq κ] {k : κ} {v : ν} :
    ∀ {l : List (κ × ν)}, alGet k l = some v → (k, v) ∈ l := by
  intro l
  induction l with
  | nil => intro h; simp [alGet] at h
  | cons kv rest ih =>
    intro h
    by_cases hk : kv.1 = k
    · simp only [alGet, hk, if_pos] at h
      cases h
      subst hk
      exact List.mem_cons_self _ _
    · simp only [alGet, hk, if_neg, not_false_iff] at h
      exact List.mem_cons_of_mem _ (ih h)

/-- Assigning an absent key appends it at the end of the insertion order. -/
theorem alSet_of_alGet_none {κ ν : Type} [DecidableEq κ] {k : κ} (v : ν) :
    ∀ {l : List (κ × ν)}, alGet k l = none → alSet k v l = l ++ [(k, v)] := by
  intro l
  induction l with
  | nil => intro _; simp [alSet]
  | cons kv rest ih =>
    intro h
    by_cases hk : kv.1 = k
    · simp [alGet, hk] at h
    · simp only [alGet, hk, if_neg, not_false_iff] at h
      simp [alSet, hk, ih h]

/-- Assigning a present key keeps the key sequence unchanged. -/
theorem alSet_map_fst_of_isSome {κ ν : Type} [DecidableEq κ] {k : κ} (v : ν) :
    ∀ {l : List (κ × ν)}, (alGet k l).isSome → (alSet k v l).map Prod.fst = l.map Prod.fst := by
  intro l
  induction l with
  | nil => intro h; simp [alGet] at h
  | cons kv rest ih =>
    intro h
    by_cases hk : kv.1 = k
    · simp [alSet, hk]
    · simp only [alGet, hk, if_neg, not_false_iff] at h
      simp [alSet, hk, ih h]

/-- Looking up the key just assigned returns the assigned value. -/
theorem alGet_alSet_self {κ ν : Type} [DecidableEq κ] (k : κ) (v : ν) :
    ∀ (l : List (κ × ν)), alGet k (alSet k v l) = some v := by
  intro l
  induction l with
  | nil => simp [alSet, alGet]
  | cons kv rest ih =>
    by_cases hk : kv.1 = k
    · simp [alSet, hk, alGet]
    · simp [alSet, hk, alGet, ih]

/-- Assigning one key leaves lookups of other keys unchanged. -/
theorem alGet_alSet_ne {κ ν : Type} [DecidableEq κ] {k1 k2 : κ} (h : k1 ≠ k2) (v : ν) :
    ∀ (l : List (κ × ν)), alGet k1 (alSet k2 v l) = alGet k1 l := by
  intro l
  induction l with
  | nil => simp [alSet, alGet, Ne.symm h]
  | cons kv rest ih =>
    by_cases hk : kv.1 = k2
    · simp only [alSet, hk, if_pos]
      simp [alGet, Ne.symm h, hk]
    · simp only [alSet, hk, if_neg, not_false_iff]
      by_cases hk1 : kv.1 = k1
      · simp [alGet, hk1]
      · simp [alGet, hk1, ih]

/-- Every entry of an assignment result is the assigned pair or an original
    entry. -/
theorem mem_alSet {κ ν : Type} [DecidableEq κ] {k : κ} {v : ν} {kv : κ × ν} :
    ∀ {l : List (κ × ν)}, kv ∈ alSet k v l → kv = (k, v) ∨ kv ∈ l := by
  intro l
  induction l with
  | nil => intro h; simp [alSet] at h; exact Or.inl h
  | cons kv1 rest ih =>
    intro h
    by_cases hk : kv1.1 = k
    · simp only [alSet, hk, if_pos] at h
      rcases List.mem_cons.mp h with h1 | h1
      · exact Or.inl h1
      · exact Or.inr (List.mem_cons_of_mem _ h1)
    · simp only [alSet, hk, if_neg, not_false_iff] at h
      rcases List.mem_cons.mp h with h1 | h1
      · exact Or.inr (h1 ▸ List.mem_cons_self _ _)
      · rcases ih h1 with h2 | h2
        · exact Or.inl h2
        · exact Or.inr (List.mem_cons_of_mem _ h2)

/-- The key object omits its `Dimensions` property exactly when the metric's
    dimension list is absent or empty. -/
theorem keyDims_eq_none_iff (m : Metric) : keyDims m = none ↔ effDims m = [] := by
  cases hm : m.Dimensions with
  | none => simp [keyDims, effDims, hm]
  | some ds =>
    cases ds with
    | nil => simp [keyDims, effDims, hm]
    | cons d rest => simp [keyDims, effDims, hm]

/-- For a non-empty dimension list the key holds the sorted list. -/
theorem keyDims_of_ne_nil {m : Metric} (h : effDims m ≠ []) :
    keyDims m = some (sortDims (effDims m)) := by
  cases hm : m.Dimensions with
  | none => simp [effDims, hm] at h
  | some ds =>
    cases ds with
    | nil => simp [effDims, hm] at h
    | cons d rest => simp [keyDims, effDims, hm]

/-- Same name and permuted dimension lists (with distinct names) yield the
    same aggregation key. -/
theorem metricKey_eq_of_perm {m1 m2 : Metric} (hn : m1.MetricName = m2.MetricName)
    (hp : (effDims m1).Perm (effDims m2)) (hd : dimNamesDistinct (effDims m1)) :
    metricKey m1 = metricKey m2 := by
  by_cases he : effDims m1 = []
  · have he2 : effDims m2 = [] := by
      rw [he] at hp
      exact hp.symm.eq_nil
    rw [metricKey, metricKey, hn, (keyDims_eq_none_iff m1).mpr he,
      (keyDims_eq_none_iff m2).mpr he2]
  · have he2 : effDims m2 ≠ [] := by
      intro h2
      rw [h2] at hp
      exact he hp.eq_nil
    rw [metricKey, metricKey, hn, keyDims_of_ne_nil he, keyDims_of_ne_nil he2,
      sortDims_eq_of_perm hp hd]

/-- Non-permuted dimension lists yield distinct aggregation keys. -/
theorem metricKey_ne_of_not_perm {m1 m2 : Metric}
    (hp : ¬ (effDims m1).Perm (effDims m2)) : metricKey m1 ≠ metricKey m2 := by
  intro he
  apply hp
  have hk : keyDims m1 = keyDims m2 := congrArg AggKey.dims he
  by_cases h1 : effDims m1 = []
  · by_cases h2 : effDims m2 = []
    · rw [h1, h2]
    · rw [(keyDims_eq_none_iff m1).mpr h1, keyDims_of_ne_nil h2] at hk
      cases hk
  · by_cases h2 : effDims m2 = []
    · rw [(keyDims_eq_none_iff m2).mpr h2, keyDims_of_ne_nil h1] at hk
      cases hk
    · rw [keyDims_of_ne_nil h1, keyDims_of_ne_nil h2] at hk
      have hs : sortDims (effDims m1) = sortDims (effDims m2) := Option.some.inj hk
      exact (sortDims_perm (effDims m1)).symm.trans (hs ▸ sortDims_perm (effDims m2))

/-- After the in-place canonicalization, any present dimension list is sorted
    by ascending name. -/
theorem canonMetric_dims_sorted {m : Metric} {d : List Dimension}
    (h : (canonMetric m).Dimensions = some d) : d.Pairwise dimLE := by
  cases hm : m.Dimensions with
  | none =>
    have hc : canonMetric m = m := by simp [canonMetric, hm]
    rw [hc, hm] at h
    cases h
  | some ds =>
    cases ds with
    | nil =>
      have hc : canonMetric m = m := by simp [canonMetric, hm]
      rw [hc, hm] at h
      cases h
      exact List.Pairwise.nil
    | cons d1 rest =>
      have hc : (canonMetric m).Dimensions = some (sortDims (d1 :: rest)) := by
        simp [canonMetric, hm]
      rw [hc] at h
      cases h
      exact sortDims_sorted (d1 :: rest)

/-- Draining a two-element queue whose metrics share an aggregation key yields
    the single merged aggregate. -/
theorem reduceAndClear_pair_same_key {m1 m2 : Metric} (h : metricKey m1 = metricKey m2) :
    (AggregateMetricQueue.reduceAndClear none [m1, m2]).1 =
      [(AggregatedMetric.ofMetric (canonMetric m1)).push (canonMetric m2)] := by
  simp [AggregateMetricQueue.reduceAndClear, AggregateMetricQueue.reduceLoop, limitAllows,
    AggregateMetricQueue.mapMetricToAggregator, alGet, alSet, ← h]

/-- Draining a two-element queue whose metrics have distinct aggregation keys
    yields two aggregates, in arrival order. -/
theorem reduceAndClear_pair_diff_key {m1 m2 : Metric} (h : metricKey m1 ≠ metricKey m2) :
    (AggregateMetricQueue.reduceAndClear none [m1, m2]).1 =
      [AggregatedMetric.ofMetric (canonMetric m1), AggregatedMetric.ofMetric (canonMetric m2)] := by
  simp [AggregateMetricQueue.reduceAndClear, AggregateMetricQueue.reduceLoop, limitAllows,
    AggregateMetricQueue.mapMetricToAggregator, alGet, alSet, h]

/-- Folding addition from a seed adds the list sum. -/
theorem foldl_add_eq : ∀ (l : List Int) (v : Int), l.foldl (· + ·) v = v + l.sum
  | [], v => by simp
  | x :: xs, v => by
    rw [List.foldl_cons, foldl_add_eq xs (v + x), List.sum_cons]
    ring

/-- The JS reduce over a value list computes the list sum. -/
theorem jsReduceAdd_eq_sum : ∀ (l : List Int), jsReduceAdd l = l.sum
  | [] => rfl
  | v :: rest => by rw [jsReduceAdd, foldl_add_eq rest v, List.sum_cons]

/-- The accumulator invariant, preserved along any sequence of pushes:
    `Value` is the sum of `Values`, and `Values` holds one more entry than
    `_metrics` (the seed value has no backing metric). -/
theorem push_foldl_invariant : ∀ (pushes : List Metric) (a : AggregatedMetric),
    a.Value = a.Values.sum → a.Values.length = a.count + 1 →
    (pushes.foldl AggregatedMetric.push a).Value = (pushes.foldl AggregatedMetric.push a).Values.sum ∧
    (pushes.foldl AggregatedMetric.push a).Values.length = (pushes.foldl AggregatedMetric.push a).count + 1 := by
  intro pushes
  induction pushes with
  | nil => intro a h1 h2; exact ⟨h1, h2⟩
  | cons m rest ih =>
    intro a h1 h2
    rw [List.foldl_cons]
    apply ih
    · simp [AggregatedMetric.push, jsReduceAdd_eq_sum]
    · simp [AggregatedMetric.push, AggregatedMetric.count] at h2 ⊢
      omega

/-- A state whose `timer` field is unset is the freshly constructed state:
    `start` is the only operation that changes the field, and it sets it. -/
theorem applyOps_timer_none : ∀ (ops : List HandlerOp) (s : AggregateMetricTimedHandler),
    (s.timer = none → s = initHandler) →
    ((applyOps s ops).timer = none → applyOps s ops = initHandler) := by
  intro ops
  induction ops with
  | nil => intro s hs; exact hs
  | cons op rest ih =>
    intro s hs
    have hstep : (applyOp s op).timer = none → applyOp s op = initHandler := by
      cases op with
      | start i =>
        intro h
        have hrw : applyOp s (HandlerOp.start i) = s.start i := rfl
        rw [hrw] at h ⊢
        cases hts : s.timer with
        | some id =>
          have hse : s.start i = s := by
            simp [AggregateMetricTimedHandler.start, hts]
          rw [hse] at h ⊢
          exact hs h
        | none =>
          have hsome : (s.start i).timer = some s.nextId := by
            simp [AggregateMetricTimedHandler.start, hts]
          rw [hsome] at h
          cases h
      | cancel =>
        intro h
        have hrw : applyOp s HandlerOp.cancel = s.cancel := rfl
        rw [hrw] at h ⊢
        cases hts : s.timer with
        | some id =>
          have hsome : s.cancel.timer = some id := by
            simp [AggregateMetricTimedHandler.cancel, hts]
          rw [hsome] at h
          cases h
        | none =>
          have hse : s.cancel = s := by
            simp [AggregateMetricTimedHandler.cancel, hts]
          rw [hse] at h ⊢
          exact hs h
    have happ : applyOps s (op :: rest) = applyOps (applyOp s op) rest := rfl
    rw [happ]
    exact ih (applyOp s op) hstep

/-- A reachable scheduler state with no stored timer handle is the initial
    state. -/
theorem handler_timer_none_is_init {ops : List HandlerOp}
    (h : (applyOps initHandler ops).timer = none) : applyOps initHandler ops = initHandler :=
  applyOps_timer_none ops initHandler (fun _ => rfl) h

/-- A freshly constructed aggregate (seed canonicalized by the drain pass) has
    a sorted dimension list whenever one is present. -/
theorem dimsSorted_ofMetric_canon (m : Metric) :
    dimsSorted (AggregatedMetric.ofMetric (canonMetric m)) := by
  intro d hd
  exact canonMetric_dims_sorted hd

/-- Pushing keeps the aggregate's dimension list unchanged, hence sorted. -/
theorem dimsSorted_push {a : AggregatedMetric} (h : dimsSorted a) (m : Metric) :
    dimsSorted (a.push m) := by
  intro d hd
  exact h d hd

/-- Mapping one metric into the aggregation map preserves the map-wide
    sortedness of dimension lists. -/
theorem mapMetricToAggregator_dims_sorted {m : Metric} {map : AggMap}
    (hmap : ∀ a ∈ map.map Prod.snd, dimsSorted a) :
    ∀ a ∈ (AggregateMetricQueue.mapMetricToAggregator m map).map Prod.snd, dimsSorted a := by
  intro a ha
  rw [AggregateMetricQueue.mapMetricToAggregator] at ha
  cases hget : alGet (metricKey m) map with
  | none =>
    simp only [hget] at ha
    rcases List.mem_map.mp ha with ⟨kv, hkv, hkva⟩
    rcases mem_alSet hkv with h1 | h1
    · rw [← hkva, h1]
      exact dimsSorted_ofMetric_canon m
    · exact hmap a (List.mem_map.mpr ⟨kv, h1, hkva⟩)
  | some a0 =>
    simp only [hget] at ha
    rcases List.mem_map.mp ha with ⟨kv, hkv, hkva⟩
    rcases mem_alSet hkv with h1 | h1
    · rw [← hkva, h1]
      exact dimsSorted_push (hmap a0 (List.mem_map.mpr ⟨_, alGet_mem hget, rfl⟩)) _
    · exact hmap a (List.mem_map.mpr ⟨kv, h1, hkva⟩)

/-- The drain loop only ever emits aggregates with sorted dimension lists. -/
theorem reduceLoop_dims_sorted (lim : Option Nat) :
    ∀ (q : List Metric) (counter : Nat) (map : AggMap),
    (∀ a ∈ map.map Prod.snd, dimsSorted a) →
    ∀ a ∈ (AggregateMetricQueue.reduceLoop lim counter q map).1.map Prod.snd, dimsSorted a := by
  intro q
  induction q with
  | nil =>
    intro counter map hmap
    simpa [AggregateMetricQueue.reduceLoop] using hmap
  | cons m rest ih =>
    intro counter map hmap
    by_cases hla : limitAllows lim counter
    · simp only [AggregateMetricQueue.reduceLoop, hla, if_true]
      exact ih (counter + 1) _ (mapMetricToAggregator_dims_sorted hmap)
    · simpa only [AggregateMetricQueue.reduceLoop, hla, if_false] using hmap

/-- C1: evaluation at the failing input.  `reduceAndClear (some 2)` on the
    three-element queue `[mA, mB, mC]` aggregates the first two metrics but
    also shifts the third off the queue without processing it: the remaining
    queue is empty (`count` = 0, not 1) and `mC` is not available to a
    subsequent drain. -/
theorem c1_limit_drops_next_metric :
    (AggregateMetricQueue.reduceAndClear (some 2) [mA, mB, mC]).2 = [] ∧
    AggregateMetricQueue.count (AggregateMetricQueue.reduceAndClear (some 2) [mA, mB, mC]).2 = 0 ∧
    (AggregateMetricQueue.reduceAndClear (some 2) [mA, mB, mC]).1.map AggregatedMetric.MetricName
      = ["a", "b"] := by
  decide

/-- C2: evaluation at the failing input.  `cancel` on a running scheduler
    disarms the recurring timer but leaves the stored handle set, so the
    scheduler is not restored to the initial Idle configuration: a subsequent
    `start` hits the truthy-handle guard, changes nothing and arms no timer.
    (`cancel` on the initial Idle state is indeed a no-op.) -/
theorem c2_cancel_keeps_timer_handle :
    ((initHandler.start (some 25)).cancel).timer = some 1 ∧
    isRunning ((initHandler.start (some 25)).cancel) = false ∧
    ((initHandler.start (some 25)).cancel).start (some 50) = (initHandler.start (some 25)).cancel ∧
    isRunning (((initHandler.start (some 25)).cancel).start (some 50)) = false ∧
    initHandler.cancel = initHandler := by
  decide

/-- C3 counterexample: a metric whose name is the empty string is appended to
    the queue exactly like any other metric — `addMetrics` cannot fail and no
    InvalidMetric rejection exists, so the metric IS enqueued. -/
theorem c3_counterexample :
    AggregateMetricQueue.addMetrics [] [{ MetricName := "", Value := 7 }]
      = [{ MetricName := "", Value := 7 }] ∧
    AggregateMetricQueue.count
      (AggregateMetricQueue.addMetrics [] [{ MetricName := "", Value := 7 }]) = 1 := by
  decide

/-- C3 (amended): `addMetrics` performs no validation at all — every supplied
    metric, whatever its name (empty included), is appended to the tail of the
    queue in arrival order, and the call always succeeds. -/
theorem c3_addMetrics_no_validation (q ms : List Metric) :
    AggregateMetricQueue.addMetrics q ms = q ++ ms := by
  induction ms generalizing q with
  | nil => simp [AggregateMetricQueue.addMetrics]
  | cons m rest ih =>
    have h1 : AggregateMetricQueue.addMetrics q (m :: rest)
        = AggregateMetricQueue.addMetrics (q ++ [m]) rest := rfl
    rw [h1, ih (q ++ [m])]
    simp

/-- C4 counterexample: an aggregate freshly constructed from a seed has one
    entry in `Values` but `count()` returns 0 — the sample count does not
    equal the length of the values list. -/
theorem c4_counterexample :
    (AggregatedMetric.ofMetric { MetricName := "m1", Value := 5 }).Values.length = 1 ∧
    (AggregatedMetric.ofMetric { MetricName := "m1", Value := 5 }).count = 0 := by
  decide

/-- C4 (amended): for every seed and every sequence of pushes, the aggregate's
    `Value` equals the sum (fold of +) of its `Values` list, and the length of
    `Values` equals `count() + 1` — `count()` counts only pushed metrics, not
    the seed. -/
theorem c4_sum_and_count (seed : Metric) (pushes : List Metric) :
    (pushes.foldl AggregatedMetric.push (AggregatedMetric.ofMetric seed)).Value
      = (pushes.foldl AggregatedMetric.push (AggregatedMetric.ofMetric seed)).Values.sum ∧
    (pushes.foldl AggregatedMetric.push (AggregatedMetric.ofMetric seed)).Values.length
      = (pushes.foldl AggregatedMetric.push (AggregatedMetric.ofMetric seed)).count + 1 :=
  push_foldl_invariant pushes (AggregatedMetric.ofMetric seed)
    (by simp [AggregatedMetric.ofMetric])
    (by simp [AggregatedMetric.ofMetric, AggregatedMetric.count])

/-- C5: evaluation at the failing input.  Coalescing the drain of the single
    dimensioned metric `mM1Dim3` produces a roll-up entry whose `Dimensions`
    are NOT cleared: both output entries carry the `height` dimension, against
    the claim (and the source's own doc comment) that the synthesized roll-up
    is dimension-less. -/
theorem c5_rollup_keeps_dimensions :
    (AggregateMetricQueue.coalesceAndClear none [mM1Dim3]).1.map MetricSet.Dimensions
      = [some [dimHeight], some [dimHeight]] ∧
    (AggregateMetricQueue.coalesceAndClear none [mM1Dim3]).1.map MetricSet.Values
      = [[3], [3]] := by
  decide

/-- C6 counterexample: the constructor does not copy `Unit` or `Timestamp`
    from the seed (they stay unset), and `count()` of the fresh aggregate is
    0, not 1. -/
theorem c6_counterexample :
    (AggregatedMetric.ofMetric
      { MetricName := "m", Timestamp := some 3, Unit := some "Count", Value := 2 }).Unit = none ∧
    (AggregatedMetric.ofMetric
      { MetricName := "m", Timestamp := some 3, Unit := some "Count", Value := 2 }).Timestamp = none ∧
    (AggregatedMetric.ofMetric
      { MetricName := "m", Timestamp := some 3, Unit := some "Count", Value := 2 }).count = 0 := by
  decide

/-- C6 (amended): the constructor copies the seed's name and dimensions and
    initializes `Values = [seed.Value]` and `Value = seed.Value`, but leaves
    `Unit` and `Timestamp` unset and reports a `count()` of 0 (the seed is not
    recorded in `_metrics`). -/
theorem c6_constructor (m : Metric) :
    (AggregatedMetric.ofMetric m).MetricName = m.MetricName ∧
    (AggregatedMetric.ofMetric m).Dimensions = m.Dimensions ∧
    (AggregatedMetric.ofMetric m).Unit = none ∧
    (AggregatedMetric.ofMetric m).Timestamp = none ∧
    (AggregatedMetric.ofMetric m).Values = [m.Value] ∧
    (AggregatedMetric.ofMetric m).Value = m.Value ∧
    (AggregatedMetric.ofMetric m).count = 0 := by
  refine ⟨rfl, rfl, rfl, rfl, rfl, rfl, rfl⟩

/-- C7: two metrics with the same name whose effective dimension lists are
    permutations of each other (dimension names being distinct within a
    metric) share an aggregation key and are merged by the drain into one
    aggregate holding both samples; when the effective dimension lists are not
    permutations of each other, the drain produces two distinct aggregates. -/
theorem c7_identity_grouping (m1 m2 : Metric) (hn : m1.MetricName = m2.MetricName) :
    ((effDims m1).Perm (effDims m2) → dimNamesDistinct (effDims m1) →
      (AggregateMetricQueue.reduceAndClear none [m1, m2]).1 =
        [(AggregatedMetric.ofMetric (canonMetric m1)).push (canonMetric m2)]) ∧
    (¬ (effDims m1).Perm (effDims m2) →
      (AggregateMetricQueue.reduceAndClear none [m1, m2]).1 =
        [AggregatedMetric.ofMetric (canonMetric m1), AggregatedMetric.ofMetric (canonMetric m2)]) :=
  ⟨fun hp hd => reduceAndClear_pair_same_key (metricKey_eq_of_perm hn hp hd),
   fun hp => reduceAndClear_pair_diff_key (metricKey_ne_of_not_perm hp)⟩

/-- C7 witness: the test suite's order-swapped dimension pair merges into one
    aggregate, while the dimensioned/dimension-less pair stays as two. -/
theorem c7_witness :
    (AggregateMetricQueue.reduceAndClear none [mP1, mP2]).1 =
      [(AggregatedMetric.ofMetric (canonMetric mP1)).push (canonMetric mP2)] ∧
    (AggregateMetricQueue.reduceAndClear none [mP1, mP3]).1 =
      [AggregatedMetric.ofMetric (canonMetric mP1), AggregatedMetric.ofMetric (canonMetric mP3)] :=
  ⟨(c7_identity_grouping mP1 mP2 rfl).1 (by decide) (by decide),
   (c7_identity_grouping mP1 mP3 rfl).2 (by decide)⟩

/-- C9 counterexample: after `start(25)` then `cancel()`, the scheduler is not
    Running (no timer is armed), yet `start(50)` is a no-op — it arms nothing
    and records no interval — because the stale handle still trips the guard.
    The claim's "otherwise ... arms the timer" branch is therefore false for
    this reachable non-Running state. -/
theorem c9_counterexample :
    isRunning ((initHandler.start (some 25)).cancel) = false ∧
    ((initHandler.start (some 25)).cancel).start (some 50) = (initHandler.start (some 25)).cancel ∧
    isRunning (((initHandler.start (some 25)).cancel).start (some 50)) = false := by
  decide

/-- C9 (amended): `start` is a no-op whenever the stored timer handle is set
    (which covers every Running state, and also cancelled states, since
    `cancel` never clears the handle); from a reachable state with no handle —
    necessarily the initial state, whose recorded interval is the default
    1000 — `start` arms a recurring timer, with the given interval when it is
    positive and with the default 1000 ms when it is omitted or non-positive. -/
theorem c9_start_guard (ops : List HandlerOp) (i : Option Int) :
    ((applyOps initHandler ops).timer.isSome = true →
      (applyOps initHandler ops).start i = applyOps initHandler ops) ∧
    ((applyOps initHandler ops).timer = none →
      isRunning ((applyOps initHandler ops).start i) = true ∧
      ((applyOps initHandler ops).start i).interval =
        (match i with
          | some v => if 0 < v then v else 1000
          | none => 1000)) := by
  constructor
  · intro h
    simp [AggregateMetricTimedHandler.start, h]
  · intro h
    rw [handler_timer_none_is_init h]
    cases i with
    | none =>
      exact ⟨by simp [AggregateMetricTimedHandler.start, initHandler, isRunning],
        by simp [AggregateMetricTimedHandler.start, initHandler]⟩
    | some v =>
      by_cases hv : 0 < v
      · exact ⟨by simp [AggregateMetricTimedHandler.start, initHandler, isRunning],
          by simp [AggregateMetricTimedHandler.start, initHandler, hv]⟩
      · exact ⟨by simp [AggregateMetricTimedHandler.start, initHandler, isRunning],
          by simp [AggregateMetricTimedHandler.start, initHandler, hv]⟩

/-- C9 witness: from the initial state, starting with the non-positive
    interval 0 arms the timer at the default 1000 ms. -/
theorem c9_witness :
    isRunning ((applyOps initHandler []).start (some 0)) = true ∧
    ((applyOps initHandler []).start (some 0)).interval = 1000 := by
  have h := (c9_start_guard [] (some 0)).2 rfl
  exact ⟨h.1, by simpa using h.2⟩

/-- C10: every aggregate emitted by the drain holds a dimension list sorted in
    ascending order of dimension name whenever one is present — the
    canonicalizing sort is applied to the metric's own dimension list before
    it is stored in the aggregate, whatever order the caller supplied. -/
theorem c10_drain_dims_sorted (lim : Option Nat) (q : List Metric)
    (a : AggregatedMetric) (ha : a ∈ (AggregateMetricQueue.reduceAndClear lim q).1)
    (d : List Dimension) (hd : a.Dimensions = some d) :
    d.Pairwise dimLE :=
  reduceLoop_dims_sorted lim q 0 [] (by simp) a ha d hd

/-- C10 witness: draining a metric whose dimensions arrive as b, a stores them
    sorted as a, b. -/
theorem c10_witness :
    List.Pairwise dimLE [(⟨"a", "1"⟩ : Dimension), ⟨"b", "2"⟩] :=
  c10_drain_dims_sorted none [mW] aggW (by decide) [⟨"a", "1"⟩, ⟨"b", "2"⟩] (by decide)

/-- The coalesce-map key of a metric always carries that metric's name. -/
theorem coalesceUniqueKey_keyName (a : AggregatedMetric) :
    (coalesceUniqueKey a).keyName = a.MetricName := by
  cases h : a.Dimensions.getD [] with
  | nil => simp [coalesceUniqueKey, h, CKey.keyName]
  | cons d ds => simp [coalesceUniqueKey, h, CKey.keyName]

/-- For an entry with empty or absent dimensions the unique key IS the
    roll-up key. -/
theorem coalesceUniqueKey_rollup {a : AggregatedMetric} (h : a.Dimensions.getD [] = []) :
    coalesceUniqueKey a = CKey.rollup a.MetricName := by
  simp [coalesceUniqueKey, h]

/-- The roll-up key for name `n` differs from any key carrying another name. -/
theorem rollup_ne_of_keyName {k : CKey} {n : String} (h : k.keyName ≠ n) :
    CKey.rollup n ≠ k := by
  cases k with
  | rollup m =>
    intro he
    injection he with h1
    exact h (by simpa [CKey.keyName] using h1.symm)
  | unique m ds => intro he; exact CKey.noConfusion he

/-- The roll-up update preserves the invariant that each stored entry carries
    the name its key was built from. -/
theorem rollupUpdate_nameInv {cmap : List (CKey × MetricSet)} {a : AggregatedMetric}
    (h : ∀ kv ∈ cmap, (kv.2).MetricName = kv.1.keyName) :
    ∀ kv ∈ rollupUpdate cmap a, (kv.2).MetricName = kv.1.keyName := by
  intro kv hkv
  cases hget : alGet (CKey.rollup a.MetricName) cmap with
  | none =>
    simp only [rollupUpdate, hget] at hkv
    rcases mem_alSet hkv with h1 | h1
    · rw [h1]; rfl
    · exact h kv h1
  | some ex =>
    simp only [rollupUpdate, hget] at hkv
    rcases mem_alSet hkv with h1 | h1
    · rw [h1]
      have hex := h (CKey.rollup a.MetricName, ex) (alGet_mem hget)
      exact hex
    · exact h kv h1

/-- One coalesce step preserves the name/key invariant. -/
theorem coalesceStep_nameInv {cmap : List (CKey × MetricSet)} {a : AggregatedMetric}
    (h : ∀ kv ∈ cmap, (kv.2).MetricName = kv.1.keyName) :
    ∀ kv ∈ coalesceStep cmap a, (kv.2).MetricName = kv.1.keyName := by
  intro kv hkv
  by_cases hku : coalesceUniqueKey a = CKey.rollup a.MetricName
  · simp only [coalesceStep, hku, ne_eq, not_true_eq_false, if_false] at hkv
    exact rollupUpdate_nameInv h kv hkv
  · simp only [coalesceStep, ne_eq, hku, not_false_eq_true, if_true] at hkv
    rcases mem_alSet hkv with h1 | h1
    · rw [h1]
      exact (coalesceUniqueKey_keyName a).symm
    · exact rollupUpdate_nameInv h kv h1

/-- The whole coalesce fold preserves the name/key invariant. -/
theorem coalesce_fold_nameInv :
    ∀ (ms : List AggregatedMetric) (cmap : List (CKey × MetricSet)),
    (∀ kv ∈ cmap, (kv.2).MetricName = kv.1.keyName) →
    ∀ kv ∈ ms.foldl coalesceStep cmap, (kv.2).MetricName = kv.1.keyName := by
  intro ms
  induction ms with
  | nil => intro cmap h; exact h
  | cons a rest ih =>
    intro cmap h
    exact ih (coalesceStep cmap a) (coalesceStep_nameInv h)

/-- Under the name/key invariant, counting output entries by name is counting
    map keys by name. -/
theorem countName_eq_keyCount (n : String) :
    ∀ (cmap : List (CKey × MetricSet)),
    (∀ kv ∈ cmap, (kv.2).MetricName = kv.1.keyName) →
    ((cmap.map Prod.snd).filter (fun s => s.MetricName == n)).length =
      ((cmap.map Prod.fst).filter (fun k => k.keyName == n)).length := by
  intro cmap
  induction cmap with
  | nil => intro _; rfl
  | cons kv rest ih =>
    intro h
    have hkv : kv.2.MetricName = kv.1.keyName := h kv (List.mem_cons_self _ _)
    have hrest := ih (fun x hx => h x (List.mem_cons_of_mem _ hx))
    simp only [List.map_cons, List.filter_cons, hkv]
    by_cases hn : (kv.1.keyName == n) <;> simp [hn, hrest]

/-- Assigning under a key that carries another name changes neither the
    `n`-named key list. -/
theorem filter_alSet_ne (n : String) {k : CKey} (hk : (k.keyName == n) = false)
    (v : MetricSet) (l : List (CKey × MetricSet)) :
    ((alSet k v l).map Prod.fst).filter (fun x => x.keyName == n) =
      (l.map Prod.fst).filter (fun x => x.keyName == n) := by
  cases hget : alGet k l with
  | none =>
    rw [alSet_of_alGet_none v hget]
    simp [List.filter_append, hk]
  | some ex =>
    rw [alSet_map_fst_of_isSome v (by rw [hget]; rfl)]

/-- One coalesce step: effect on the `n`-named keys and on the presence of
    the `n` roll-up entry, for a step metric that is dimension-less whenever
    it is named `n`. -/
theorem coalesceStep_keys (n : String) {cmap : List (CKey × MetricSet)} {a : AggregatedMetric}
    (hdims : a.MetricName = n → a.Dimensions.getD [] = [])
    (hfil : (cmap.map Prod.fst).filter (fun k => k.keyName == n) =
      (if (alGet (CKey.rollup n) cmap).isSome then [CKey.rollup n] else [])) :
    (((coalesceStep cmap a).map Prod.fst).filter (fun k => k.keyName == n) =
      (if (alGet (CKey.rollup n) (coalesceStep cmap a)).isSome then [CKey.rollup n] else [])) ∧
    ((alGet (CKey.rollup n) (coalesceStep cmap a)).isSome =
      ((alGet (CKey.rollup n) cmap).isSome || (a.MetricName == n))) := by
  by_cases han : a.MetricName = n
  · subst han
    have hku := coalesceUniqueKey_rollup (hdims rfl)
    have hstep : coalesceStep cmap a = rollupUpdate cmap a := by
      simp [coalesceStep, hku]
    rw [hstep]
    cases hget : alGet (CKey.rollup a.MetricName) cmap with
    | none =>
      have hru : rollupUpdate cmap a = alSet (CKey.rollup a.MetricName) a.getMetricSet cmap := by
        simp [rollupUpdate, hget]
      rw [hru]
      constructor
      · rw [alGet_alSet_self, alSet_of_alGet_none _ hget]
        simp only [List.map_append, List.filter_append, hfil, hget]
        simp [CKey.keyName]
      · simp [alGet_alSet_self, hget]
    | some ex =>
      have hru : rollupUpdate cmap a =
          alSet (CKey.rollup a.MetricName)
            { ex with Values := ex.Values ++ a.getMetricSet.Values } cmap := by
        simp [rollupUpdate, hget]
      rw [hru]
      constructor
      · rw [alGet_alSet_self, alSet_map_fst_of_isSome _ (by rw [hget]; rfl), hfil, hget]
        simp
      · simp [alGet_alSet_self, hget]
  · have hbne : (a.MetricName == n) = false := by
      simp [han]
    have hkc : ((CKey.rollup a.MetricName).keyName == n) = false := by
      simp [CKey.keyName, han]
    have hku : ((coalesceUniqueKey a).keyName == n) = false := by
      rw [coalesceUniqueKey_keyName]
      exact hbne
    have hnek : CKey.rollup n ≠ CKey.rollup a.MetricName :=
      rollup_ne_of_keyName (by simpa [CKey.keyName] using han)
    have hneku : CKey.rollup n ≠ coalesceUniqueKey a :=
      rollup_ne_of_keyName (by rw [coalesceUniqueKey_keyName]; exact fun hh => han hh)
    have hruFil : ((rollupUpdate cmap a).map Prod.fst).filter (fun k => k.keyName == n) =
        (cmap.map Prod.fst).filter (fun k => k.keyName == n) := by
      cases hget : alGet (CKey.rollup a.MetricName) cmap with
      | none =>
        have hru : rollupUpdate cmap a = alSet (CKey.rollup a.MetricName) a.getMetricSet cmap := by
          simp [rollupUpdate, hget]
        rw [hru]
        exact filter_alSet_ne n hkc _ _
      | some ex =>
        have hru : rollupUpdate cmap a =
            alSet (CKey.rollup a.MetricName)
              { ex with Values := ex.Values ++ a.getMetricSet.Values } cmap := by
          simp [rollupUpdate, hget]
        rw [hru]
        exact filter_alSet_ne n hkc _ _
    have hruGet : alGet (CKey.rollup n) (rollupUpdate cmap a) = alGet (CKey.rollup n) cmap := by
      cases hget : alGet (CKey.rollup a.MetricName) cmap with
      | none =>
        have hru : rollupUpdate cmap a = alSet (CKey.rollup a.MetricName) a.getMetricSet cmap := by
          simp [rollupUpdate, hget]
        rw [hru]
        exact alGet_alSet_ne hnek _ _
      | some ex =>
        have hru : rollupUpdate cmap a =
            alSet (CKey.rollup a.MetricName)
              { ex with Values := ex.Values ++ a.getMetricSet.Values } cmap := by
          simp [rollupUpdate, hget]
        rw [hru]
        exact alGet_alSet_ne hnek _ _
    by_cases hkuq : coalesceUniqueKey a = CKey.rollup a.MetricName
    · have hstep : coalesceStep cmap a = rollupUpdate cmap a := by
        simp [coalesceStep, hkuq]
      rw [hstep, hruGet, hruFil, hfil, hbne]
      simp
    · have hstep : coalesceStep cmap a =
          alSet (coalesceUniqueKey a) a.getMetricSet (rollupUpdate cmap a) := by
        simp [coalesceStep, hkuq]
      rw [hstep, alGet_alSet_ne hneku, hruGet, filter_alSet_ne n hku, hruFil, hfil, hbne]
      simp

/-- Folding the coalesce step: the `n`-named keys are exactly one roll-up key
    once any `n`-named entry has been processed (given that all `n`-named
    inputs are dimension-less), and none before. -/
theorem coalesce_fold_keys (n : String) :
    ∀ (ms : List AggregatedMetric) (cmap : List (CKey × MetricSet)),
    (∀ a ∈ ms, a.MetricName = n → a.Dimensions.getD [] = []) →
    ((cmap.map Prod.fst).filter (fun k => k.keyName == n) =
      (if (alGet (CKey.rollup n) cmap).isSome then [CKey.rollup n] else [])) →
    (((ms.foldl coalesceStep cmap).map Prod.fst).filter (fun k => k.keyName == n) =
      (if (alGet (CKey.rollup n) (ms.foldl coalesceStep cmap)).isSome then [CKey.rollup n] else [])) ∧
    ((alGet (CKey.rollup n) (ms.foldl coalesceStep cmap)).isSome =
      ((alGet (CKey.rollup n) cmap).isSome || ms.any (fun a => a.MetricName == n))) := by
  intro ms
  induction ms with
  | nil =>
    intro cmap _ hfil
    exact ⟨hfil, by simp⟩
  | cons a rest ih =>
    intro cmap hdims hfil
    have hstep := coalesceStep_keys n (hdims a (List.mem_cons_self _ _)) hfil
    have hrest := ih (coalesceStep cmap a)
      (fun x hx => hdims x (List.mem_cons_of_mem _ hx)) hstep.1
    constructor
    · rw [List.foldl_cons]
      exact hrest.1
    · rw [List.foldl_cons, hrest.2, hstep.2, List.any_cons]
      simp [Bool.or_assoc]

/-- C8: coalescing the drain of the dimension-less `m1` sample (value 1) and
    the `height`-dimensioned `m1` sample (value 3) yields exactly 2 entries —
    a dimension-less one with values [1, 3] and a dimensioned one with values
    [3]; and in general a metric name all of whose entries are dimension-less
    yields exactly one coalesced entry (one, never a duplicate, when the name
    occurs; zero otherwise). -/
theorem c8_coalesce_rollup :
    ((AggregateMetricQueue.coalesceAndClear none [mM1, mM1Dim3]).1.map
        (fun s => (s.Dimensions, s.Values)) = [(none, [1, 3]), (some [dimHeight], [3])] ∧
      (AggregateMetricQueue.coalesceAndClear none [mM1, mM1Dim3]).1.length = 2) ∧
    (∀ (ms : List AggregatedMetric) (n : String),
      (∀ a ∈ ms, a.MetricName = n → a.Dimensions.getD [] = []) →
      countName n (AggregateMetricQueue.coalesce ms) =
        if ms.any (fun a => a.MetricName == n) then 1 else 0) := by
  constructor
  · exact ⟨by decide, by decide⟩
  · intro ms n hdims
    have hbase : ((([] : List (CKey × MetricSet)).map Prod.fst).filter (fun k => k.keyName == n) =
        (if (alGet (CKey.rollup n) ([] : List (CKey × MetricSet))).isSome
          then [CKey.rollup n] else [])) := by
      simp [alGet]
    have hkeys := coalesce_fold_keys n ms [] hdims hbase
    have hinv := coalesce_fold_nameInv ms [] (by intro kv hkv; cases hkv)
    have hcount : countName n (AggregateMetricQueue.coalesce ms) =
        (((ms.foldl coalesceStep []).map Prod.fst).filter (fun k => k.keyName == n)).length :=
      countName_eq_keyCount n (ms.foldl coalesceStep []) hinv
    rw [hcount, hkeys.1]
    have h2 : (alGet (CKey.rollup n) (ms.foldl coalesceStep [])).isSome =
        ms.any (fun a => a.MetricName == n) := by
      rw [hkeys.2]
      simp [alGet]
    rw [h2]
    cases hany : ms.any (fun a => a.MetricName == n) <;> simp [hany]

/-- C8 witness: a name that appears once, dimension-less, yields exactly one
    coalesced entry. -/
theorem c8_witness :
    countName "solo" (AggregateMetricQueue.coalesce
      [AggregatedMetric.ofMetric { MetricName := "solo", Value := 2 }]) = 1 := by
  have h := c8_coalesce_rollup.2
    [AggregatedMetric.ofMetric { MetricName := "solo", Value := 2 }] "solo" (by decide)
  rw [h]
  decide
